import Mathlib

set_option maxRecDepth 8192

/-!
Verification development for the persistence layer of an adblocking engine
(`src/data_format/v0.rs`): a versioned binary format for engine state, with
magic/version framing, a fixed 17-field positional record, and stabilized
(sorted) serialization of hash-based collections.

Strings and opaque blobs are modelled as byte lists; hash sets are modelled as
their (arbitrary-order) element lists, hash maps as association lists.
The msgpack codec and the stable-ordering helpers live outside the provided
sources and are modelled from the specification where noted.
-/

/-- A byte string (each entry is one byte). -/
abbrev Bytes := List Nat

/-- Lexicographic byte-wise comparison on byte strings (shorter prefix first). -/
def byteLe : Bytes → Bytes → Bool
  | [], _ => true
  | _ :: _, [] => false
  | a :: as, b :: bs => if a < b then true else if b < a then false else byteLe as bs

/-- Modelled from the spec: the schemaless binary encoder value universe
(byte strings, booleans, arrays, string-keyed maps), standing in for the
off-the-shelf msgpack codec used by `rmp_serde`. -/
inductive Value where
  | vstr : Bytes → Value
  | vbool : Bool → Value
  | varr : List Value → Value
  | vmap : List (Bytes × Value) → Value

/-- Big-endian 4-byte encoding of a length. -/
def len4 (n : Nat) : Bytes :=
  [n / 16777216 % 256, n / 65536 % 256, n / 256 % 256, n % 256]

mutual

/-- Modelled from the spec: byte encoding of one value
(tag byte, 4-byte big-endian length where needed, then contents). -/
def encodeV : Value → Bytes
  | .vstr s => 1 :: (len4 s.length ++ s)
  | .vbool b => [2, if b then 1 else 0]
  | .varr vs => 3 :: (len4 vs.length ++ encodeL vs)
  | .vmap es => 4 :: (len4 es.length ++ encodeE es)

/-- Concatenated encodings of array elements. -/
def encodeL : List Value → Bytes
  | [] => []
  | v :: vs => encodeV v ++ encodeL vs

/-- Concatenated encodings of map entries (length-framed key, then value). -/
def encodeE : List (Bytes × Value) → Bytes
  | [] => []
  | (k, v) :: es => len4 k.length ++ k ++ encodeV v ++ encodeE es

end

mutual

/-- Fuel measure for the decoder: enough fuel to decode a value. -/
def sizeV : Value → Nat
  | .vstr _ => 1
  | .vbool _ => 1
  | .varr vs => sizeL vs + 1
  | .vmap es => sizeE es + 1

/-- Fuel measure for decoding a list of array elements. -/
def sizeL : List Value → Nat
  | [] => 1
  | v :: vs => sizeV v + sizeL vs

/-- Fuel measure for decoding a list of map entries. -/
def sizeE : List (Bytes × Value) → Nat
  | [] => 1
  | (_, v) :: es => sizeV v + sizeE es

end

mutual

/-- Well-formedness of a value: all length fields fit in 32 bits. -/
def wfV : Value → Prop
  | .vstr s => s.length < 4294967296
  | .vbool _ => True
  | .varr vs => vs.length < 4294967296 ∧ wfL vs
  | .vmap es => es.length < 4294967296 ∧ wfE es

/-- Well-formedness of a list of array elements. -/
def wfL : List Value → Prop
  | [] => True
  | v :: vs => wfV v ∧ wfL vs

/-- Well-formedness of a list of map entries. -/
def wfE : List (Bytes × Value) → Prop
  | [] => True
  | (k, v) :: es => k.length < 4294967296 ∧ wfV v ∧ wfE es

end

/-- Read exactly `n` bytes from the front of the input. -/
def readN : Nat → Bytes → Option (Bytes × Bytes)
  | 0, bs => some ([], bs)
  | _ + 1, [] => none
  | n + 1, b :: bs =>
    match readN n bs with
    | some (s, r) => some (b :: s, r)
    | none => none

/-- Read a big-endian 4-byte length from the front of the input. -/
def read4 : Bytes → Option (Nat × Bytes)
  | b0 :: b1 :: b2 :: b3 :: r => some (b0 * 16777216 + b1 * 65536 + b2 * 256 + b3, r)
  | _ => none

mutual

/-- Modelled from the spec: fuel-indexed streaming decoder for one value;
returns the decoded value and the unconsumed remainder of the input, or
`none` on malformed or truncated input. -/
def decodeV : Nat → Bytes → Option (Value × Bytes)
  | 0, _ => none
  | _ + 1, [] => none
  | f + 1, t :: r =>
    if t = 1 then
      match read4 r with
      | some (n, r1) =>
        match readN n r1 with
        | some (s, r2) => some (.vstr s, r2)
        | none => none
      | none => none
    else if t = 2 then
      match r with
      | [] => none
      | b :: r1 =>
        if b = 0 then some (.vbool false, r1)
        else if b = 1 then some (.vbool true, r1)
        else none
    else if t = 3 then
      match read4 r with
      | some (n, r1) =>
        match decodeA f n r1 with
        | some (vs, r2) => some (.varr vs, r2)
        | none => none
      | none => none
    else if t = 4 then
      match read4 r with
      | some (n, r1) =>
        match decodeM f n r1 with
        | some (es, r2) => some (.vmap es, r2)
        | none => none
      | none => none
    else none

/-- Decode exactly `n` consecutive array elements. -/
def decodeA : Nat → Nat → Bytes → Option (List Value × Bytes)
  | 0, _, _ => none
  | _ + 1, 0, bs => some ([], bs)
  | f + 1, n + 1, bs =>
    match decodeV f bs with
    | some (v, r1) =>
      match decodeA f n r1 with
      | some (vs, r2) => some (v :: vs, r2)
      | none => none
    | none => none

/-- Decode exactly `n` consecutive map entries. -/
def decodeM : Nat → Nat → Bytes → Option (List (Bytes × Value) × Bytes)
  | 0, _, _ => none
  | _ + 1, 0, bs => some ([], bs)
  | f + 1, n + 1, bs =>
    match read4 bs with
    | some (kn, r1) =>
      match readN kn r1 with
      | some (k, r2) =>
        match decodeV f r2 with
        | some (v, r3) =>
          match decodeM f n r3 with
          | some (es, r4) => some ((k, v) :: es, r4)
          | none => none
        | none => none
      | none => none
    | none => none

end

/-- The ordering used to stabilize hash sets: compare the byte encoding of the
elements lexicographically. -/
abbrev setOrd : Bytes → Bytes → Prop :=
  fun a b => byteLe (encodeV (.vstr a)) (encodeV (.vstr b)) = true

/-- The ordering used to stabilize hash map entries: compare keys bytewise. -/
abbrev keyOrd : Bytes → Bytes → Prop := fun a b => byteLe a b = true

/-- Modelled from the spec: `stabilize_hashset_serialization` (in the missing
`data_format/utils` module) externalizes a hash set to the totally ordered
sequence of its elements, sorted by the byte value of the encoded form of
each element. The hash set itself is modelled as its arbitrary-order element list. -/
def stabSetList (l : List Bytes) : List Bytes := List.insertionSort setOrd l

/-- Sorted key sequence of a hash map, bytewise order on keys. -/
def stabKeys (ks : List Bytes) : List Bytes := List.insertionSort keyOrd ks

/-- First-match association list lookup (hash map lookup semantics). -/
def assocLookup {α : Type} : List (Bytes × α) → Bytes → Option α
  | [], _ => none
  | (k, v) :: r, q => if k = q then some v else assocLookup r q

/-- Modelled from the spec: `stabilize_hashmap_serialization` (in the missing
`data_format/utils` module) externalizes a hash map to its entries sorted by
key, each key keeping its associated value as-is. -/
def stabMapList (m : List (Bytes × List Bytes)) : List (Bytes × List Bytes) :=
  (stabKeys (m.map Prod.fst)).filterMap fun k => (assocLookup m k).map fun v => (k, v)

/-- Network-filtering engine state; fields mirror `Blocker` as used by the
conversions in `v0.rs`. Rules and opaque subcomponents are byte strings. -/
structure Blocker where
  csp : List Bytes
  exceptions : List Bytes
  importants : List Bytes
  redirects : List Bytes
  filters_tagged : List Bytes
  filters : List Bytes
  generic_hide : List Bytes
  tags_enabled : List Bytes
  tagged_filters_all : List Bytes
  enable_optimizations : Bool
  resources : Bytes
  pool : List Bytes
deriving DecidableEq

/-- Cosmetic-filtering engine state; fields mirror `CosmeticFilterCache` as
used by the conversions in `v0.rs`. Hash sets are modelled as element lists,
hash maps as association lists. -/
structure CosmeticFilterCache where
  simple_class_rules : List Bytes
  simple_id_rules : List Bytes
  complex_class_rules : List (Bytes × List Bytes)
  complex_id_rules : List (Bytes × List Bytes)
  specific_rules : Bytes
  misc_generic_selectors : List Bytes
  scriptlets : Bytes
deriving DecidableEq

/-- Modelled from the spec: the magic constant `ADBLOCK_RUST_DAT_MAGIC`
(defined in the missing `data_format` parent module); a fixed 4-byte value. -/
def ADBLOCK_RUST_DAT_MAGIC : Bytes := [209, 217, 58, 175]

/-- Encoded form of a rule bucket (`NetworkFilterList`) or rule pool. -/
def nflV (l : List Bytes) : Value := .varr (l.map .vstr)

/-- Encoded form of a hash set: its stabilized (sorted) element sequence. -/
def setV (l : List Bytes) : Value := .varr ((stabSetList l).map .vstr)

/-- Encoded form of a hash map: entries sorted by key, values kept as-is. -/
def mapV (m : List (Bytes × List Bytes)) : Value :=
  .vmap ((stabMapList m).map fun p => (p.1, .varr (p.2.map .vstr)))

/-- The 17 fields of `SerializeFormat`, in declaration order: this sequence is
the binary schema of `v0.rs` (csp, exceptions, importants, redirects,
filters_tagged, filters, generic_hide, tagged_filters_all,
enable_optimizations, resources, simple_class_rules, simple_id_rules,
complex_class_rules, complex_id_rules, specific_rules, misc_generic_selectors,
scriptlets). The borrowed `SerializeFormat` view built by
`From<(&Blocker, &CosmeticFilterCache)>` is represented by reading the fields
directly from the engine state pair. -/
def fieldsOf (b : Blocker) (c : CosmeticFilterCache) : List Value :=
  [ nflV b.csp, nflV b.exceptions, nflV b.importants, nflV b.redirects,
    nflV b.filters_tagged, nflV b.filters, nflV b.generic_hide,
    nflV b.tagged_filters_all,
    .vbool b.enable_optimizations,
    .vstr b.resources,
    setV c.simple_class_rules, setV c.simple_id_rules,
    mapV c.complex_class_rules, mapV c.complex_id_rules,
    .vstr c.specific_rules,
    setV c.misc_generic_selectors,
    .vstr c.scriptlets ]

/-- `SerializeFormat::serialize`: the magic constant, then the version byte 0,
then the encoded 17-field record. -/
def serializeEngine (b : Blocker) (c : CosmeticFilterCache) : Bytes :=
  ADBLOCK_RUST_DAT_MAGIC ++ 0 :: encodeV (.varr (fieldsOf b c))

/-- Owned aggregate produced by deserialization; fields mirror
`DeserializeFormat` in `v0.rs`. -/
structure DeserializeFormat where
  csp : List Bytes
  exceptions : List Bytes
  importants : List Bytes
  redirects : List Bytes
  filters_tagged : List Bytes
  filters : List Bytes
  generic_hide : List Bytes
  tagged_filters_all : List Bytes
  enable_optimizations : Bool
  resources : Bytes
  simple_class_rules : List Bytes
  simple_id_rules : List Bytes
  complex_class_rules : List (Bytes × List Bytes)
  complex_id_rules : List (Bytes × List Bytes)
  specific_rules : Bytes
  misc_generic_selectors : List Bytes
  scriptlets : Bytes
deriving DecidableEq

/-- The way a call to `DeserializeFormat::deserialize` can end in the source:
an `assert!` failure or an out-of-bounds slice index abort the process. -/
inductive PanicKind where
  | assertFailed
  | indexOutOfBounds
deriving DecidableEq

/-- Result of `DeserializeFormat::deserialize`: a value, a recoverable decode
error (`DeserializationError`), or a process-terminating panic. -/
inductive DResult where
  | ok : DeserializeFormat → DResult
  | decodeError : DResult
  | panic : PanicKind → DResult
deriving DecidableEq

/-- Decode a byte-string field. -/
def decStr : Value → Option Bytes
  | .vstr s => some s
  | _ => none

/-- Decode a boolean field. -/
def decBool : Value → Option Bool
  | .vbool b => some b
  | _ => none

/-- Decode a sequence of byte strings. -/
def decStrs : List Value → Option (List Bytes)
  | [] => some []
  | .vstr s :: vs => (decStrs vs).map fun l => s :: l
  | _ => none

/-- Decode a rule-list or set field (a sequence of byte strings). -/
def decStrList : Value → Option (List Bytes)
  | .varr vs => decStrs vs
  | _ => none

/-- Decode map entries: each value is a sequence of byte strings. -/
def decPairs : List (Bytes × Value) → Option (List (Bytes × List Bytes))
  | [] => some []
  | (k, v) :: es =>
    match decStrList v with
    | some l => (decPairs es).map fun r => (k, l) :: r
    | none => none

/-- Decode a map field. -/
def decMapV : Value → Option (List (Bytes × List Bytes))
  | .vmap es => decPairs es
  | _ => none

/-- Modelled from the spec: positional field access with schema evolution.
A field absent from the record (an older writer) takes its default; fields
beyond position 16 (a newer writer) are never read. -/
def getF {α : Type} (vs : List Value) (i : Nat) (dec : Value → Option α) (dflt : α) :
    Option α :=
  match vs[i]? with
  | none => some dflt
  | some v => dec v

/-- Modelled from the spec: decoding of the positional 17-field record into
`DeserializeFormat` (the behavior of the derived `Deserialize` instance over
the schemaless codec): fields are read by position, absent trailing fields
default, unknown trailing fields are ignored. -/
def interpretFields (vs : List Value) : Option DeserializeFormat := do
  let csp ← getF vs 0 decStrList []
  let exceptions ← getF vs 1 decStrList []
  let importants ← getF vs 2 decStrList []
  let redirects ← getF vs 3 decStrList []
  let filters_tagged ← getF vs 4 decStrList []
  let filters ← getF vs 5 decStrList []
  let generic_hide ← getF vs 6 decStrList []
  let tagged_filters_all ← getF vs 7 decStrList []
  let enable_optimizations ← getF vs 8 decBool false
  let resources ← getF vs 9 decStr []
  let simple_class_rules ← getF vs 10 decStrList []
  let simple_id_rules ← getF vs 11 decStrList []
  let complex_class_rules ← getF vs 12 decMapV []
  let complex_id_rules ← getF vs 13 decMapV []
  let specific_rules ← getF vs 14 decStr []
  let misc_generic_selectors ← getF vs 15 decStrList []
  let scriptlets ← getF vs 16 decStr []
  pure ⟨csp, exceptions, importants, redirects, filters_tagged, filters, generic_hide,
    tagged_filters_all, enable_optimizations, resources, simple_class_rules,
    simple_id_rules, complex_class_rules, complex_id_rules, specific_rules,
    misc_generic_selectors, scriptlets⟩

/-- `DeserializeFormat::deserialize`: `assert!` that the input starts with the
magic constant, `assert!` that the byte indexed at the magic length is the
version byte 0 (an input of exactly the magic length makes this index
out of bounds), then decode the rest as one record; the decoder reads one
complete record and ignores anything after it. Panics are made explicit. -/
def deserialize (serialized : Bytes) : DResult :=
  if ADBLOCK_RUST_DAT_MAGIC.isPrefixOf serialized then
    match serialized[ADBLOCK_RUST_DAT_MAGIC.length]? with
    | none => .panic .indexOutOfBounds
    | some b =>
      if b = 0 then
        match decodeV (serialized.length + 1)
            (serialized.drop (ADBLOCK_RUST_DAT_MAGIC.length + 1)) with
        | some (.varr fields, _) =>
          match interpretFields fields with
          | some d => .ok d
          | none => .decodeError
        | _ => .decodeError
      else .panic .assertFailed
  else .panic .assertFailed

/-- `From<DeserializeFormat> for (Blocker, CosmeticFilterCache)`: every
persisted field moves unchanged into one of the two outputs; the runtime-only
fields `tags_enabled` and `pool` take their default (empty) values. -/
def intoEngine (v : DeserializeFormat) : Blocker × CosmeticFilterCache :=
  (⟨v.csp, v.exceptions, v.importants, v.redirects, v.filters_tagged, v.filters,
    v.generic_hide, [], v.tagged_filters_all, v.enable_optimizations, v.resources, []⟩,
   ⟨v.simple_class_rules, v.simple_id_rules, v.complex_class_rules, v.complex_id_rules,
    v.specific_rules, v.misc_generic_selectors, v.scriptlets⟩)

/-- The aggregate that decoding a full record written from state `(b, c)`
produces: ordered fields verbatim, hash-based fields in stabilized order. -/
def decodedFormat (b : Blocker) (c : CosmeticFilterCache) : DeserializeFormat :=
  ⟨b.csp, b.exceptions, b.importants, b.redirects, b.filters_tagged, b.filters,
   b.generic_hide, b.tagged_filters_all, b.enable_optimizations, b.resources,
   stabSetList c.simple_class_rules, stabSetList c.simple_id_rules,
   stabMapList c.complex_class_rules, stabMapList c.complex_id_rules,
   c.specific_rules, stabSetList c.misc_generic_selectors, c.scriptlets⟩

/-- The aggregate produced from a record holding only the first `K` of the 17
schema fields: positions below `K` as written, positions from `K` on default. -/
def truncFormat (b : Blocker) (c : CosmeticFilterCache) (K : Nat) : DeserializeFormat :=
  ⟨if 0 < K then b.csp else [],
   if 1 < K then b.exceptions else [],
   if 2 < K then b.importants else [],
   if 3 < K then b.redirects else [],
   if 4 < K then b.filters_tagged else [],
   if 5 < K then b.filters else [],
   if 6 < K then b.generic_hide else [],
   if 7 < K then b.tagged_filters_all else [],
   if 8 < K then b.enable_optimizations else false,
   if 9 < K then b.resources else [],
   if 10 < K then stabSetList c.simple_class_rules else [],
   if 11 < K then stabSetList c.simple_id_rules else [],
   if 12 < K then stabMapList c.complex_class_rules else [],
   if 13 < K then stabMapList c.complex_id_rules else [],
   if 14 < K then c.specific_rules else [],
   if 15 < K then stabSetList c.misc_generic_selectors else [],
   if 16 < K then c.scriptlets else []⟩

/-- Same hash set membership. -/
def setEqv (a b : List Bytes) : Prop := ∀ x, x ∈ a ↔ x ∈ b

/-- Same hash map contents: equal lookup at every key (this forces the same
key membership, and value lists are compared by full list equality, so the
internal order of every value is compared as well). -/
def mapEqv (a b : List (Bytes × List Bytes)) : Prop :=
  ∀ k, assocLookup a k = assocLookup b k

/-- Observable equality of two engine states: every ordered field equal,
hash-based collections equal at membership/lookup level. The runtime-only
fields `tags_enabled` and `pool` are not part of the persisted state and are
not compared. -/
def obsEq (S T : Blocker × CosmeticFilterCache) : Prop :=
  S.1.csp = T.1.csp ∧ S.1.exceptions = T.1.exceptions ∧
  S.1.importants = T.1.importants ∧ S.1.redirects = T.1.redirects ∧
  S.1.filters_tagged = T.1.filters_tagged ∧ S.1.filters = T.1.filters ∧
  S.1.generic_hide = T.1.generic_hide ∧
  S.1.tagged_filters_all = T.1.tagged_filters_all ∧
  S.1.enable_optimizations = T.1.enable_optimizations ∧
  S.1.resources = T.1.resources ∧
  setEqv S.2.simple_class_rules T.2.simple_class_rules ∧
  setEqv S.2.simple_id_rules T.2.simple_id_rules ∧
  mapEqv S.2.complex_class_rules T.2.complex_class_rules ∧
  mapEqv S.2.complex_id_rules T.2.complex_id_rules ∧
  S.2.specific_rules = T.2.specific_rules ∧
  setEqv S.2.misc_generic_selectors T.2.misc_generic_selectors ∧
  S.2.scriptlets = T.2.scriptlets

/-- The hash-based collections hold no duplicate elements or keys (the
invariant every hash set and hash map maintains). -/
abbrev hashNodup (c : CosmeticFilterCache) : Prop :=
  c.simple_class_rules.Nodup ∧ c.simple_id_rules.Nodup ∧
  c.misc_generic_selectors.Nodup ∧
  (c.complex_class_rules.map Prod.fst).Nodup ∧
  (c.complex_id_rules.map Prod.fst).Nodup

/-- A byte string whose length fits the 32-bit length field. -/
abbrev wfBytes (s : Bytes) : Prop := s.length < 4294967296

/-- A list of byte strings with all lengths in 32-bit range. -/
abbrev wfList (l : List Bytes) : Prop := l.length < 4294967296 ∧ ∀ s ∈ l, wfBytes s

/-- An association list with all lengths in 32-bit range. -/
abbrev wfAssoc (m : List (Bytes × List Bytes)) : Prop :=
  m.length < 4294967296 ∧ ∀ p ∈ m, wfBytes p.1 ∧ wfList p.2

/-- A valid engine state: every collection within the 32-bit length bounds of
the encoding, and hash-based collections duplicate-free. -/
abbrev wfEngine (b : Blocker) (c : CosmeticFilterCache) : Prop :=
  wfList b.csp ∧ wfList b.exceptions ∧ wfList b.importants ∧ wfList b.redirects ∧
  wfList b.filters_tagged ∧ wfList b.filters ∧ wfList b.generic_hide ∧
  wfList b.tagged_filters_all ∧ wfBytes b.resources ∧
  wfList c.simple_class_rules ∧ wfList c.simple_id_rules ∧
  wfAssoc c.complex_class_rules ∧ wfAssoc c.complex_id_rules ∧
  wfBytes c.specific_rules ∧ wfList c.misc_generic_selectors ∧
  wfBytes c.scriptlets ∧ hashNodup c

/-- Concrete engine state from the specification scenario: one csp rule "R1",
empty exception bucket, optimization flag true. -/
def exBlocker : Blocker :=
  ⟨[[82, 49]], [], [], [], [], [], [], [], [], true, [], []⟩

/-- Concrete cosmetic state from the specification scenario: simple class
selector "ad-banner" and the complex id entry "id1" mapping to the ordered
list ["sel-a", "sel-b"]. -/
def exCfc : CosmeticFilterCache :=
  ⟨[[97, 100, 45, 98, 97, 110, 110, 101, 114]], [], [],
   [([105, 100, 49], [[115, 101, 108, 45, 97], [115, 101, 108, 45, 98]])],
   [], [], []⟩

/-- A cosmetic state whose hash-based collections were filled in one
insertion order. -/
def cfcA : CosmeticFilterCache :=
  ⟨[[97], [98]], [[5]], [([105], [[1], [2]]), ([106], [[3]])], [], [], [], []⟩

/-- The same abstract cosmetic state as `cfcA`, with the simple class set and
the complex class map filled in the opposite insertion order. -/
def cfcB : CosmeticFilterCache :=
  ⟨[[98], [97]], [[5]], [([106], [[3]]), ([105], [[1], [2]])], [], [], [], []⟩

theorem byteLe_total : ∀ a b : Bytes, byteLe a b = true ∨ byteLe b a = true := by
  intro a
  induction a with
  | nil => intro b; left; rfl
  | cons x xs ih =>
    intro b
    cases b with
    | nil => right; rfl
    | cons y ys =>
      by_cases h1 : x < y
      · left; simp [byteLe, h1]
      · by_cases h2 : y < x
        · right; simp [byteLe, h2]
        · rcases ih ys with h | h
          · left; simp [byteLe, h1, h2, h]
          · right; simp [byteLe, h1, h2, h]

theorem byteLe_trans : ∀ a b c : Bytes,
    byteLe a b = true → byteLe b c = true → byteLe a c = true := by
  intro a
  induction a with
  | nil => intro b c _ _; rfl
  | cons x xs ih =>
    intro b c hab hbc
    cases b with
    | nil => simp [byteLe] at hab
    | cons y ys =>
      cases c with
      | nil => simp [byteLe] at hbc
      | cons z zs =>
        simp only [byteLe] at hab hbc ⊢
        by_cases h1 : x < y
        · by_cases h2 : y < z
          · simp [show x < z by omega]
          · by_cases h3 : z < y
            · simp [h2, h3] at hbc
            · simp [show x < z by omega]
        · by_cases h4 : y < x
          · simp [h1, h4] at hab
          · have hxy : x = y := by omega
            subst hxy
            simp [h1, h4] at hab
            by_cases h2 : x < z
            · simp [h2]
            · by_cases h3 : z < x
              · simp [h2, h3] at hbc
              · have hxz : x = z := by omega
                subst hxz
                simp [h2, h3] at hbc ⊢
                exact ih ys zs hab hbc

theorem byteLe_antisymm : ∀ a b : Bytes,
    byteLe a b = true → byteLe b a = true → a = b := by
  intro a
  induction a with
  | nil =>
    intro b _ hba
    cases b with
    | nil => rfl
    | cons y ys => simp [byteLe] at hba
  | cons x xs ih =>
    intro b hab hba
    cases b with
    | nil => simp [byteLe] at hab
    | cons y ys =>
      simp only [byteLe] at hab hba
      by_cases h1 : x < y
      · simp [show ¬y < x by omega, h1] at hba
      · by_cases h2 : y < x
        · simp [h1, h2] at hab
        · have hxy : x = y := by omega
          subst hxy
          simp [h1, h2] at hab hba
          rw [ih ys hab hba]

theorem encVstr_inj : ∀ a b : Bytes, encodeV (.vstr a) = encodeV (.vstr b) → a = b := by
  intro a b h
  simp only [encodeV, List.cons.injEq, true_and] at h
  exact List.append_inj_right h (by simp [len4])

theorem stabSetList_perm (l : List Bytes) : (stabSetList l).Perm l :=
  List.perm_insertionSort _ _

theorem stabSetList_sorted (l : List Bytes) : List.Sorted setOrd (stabSetList l) := by
  haveI : IsTotal Bytes setOrd := ⟨fun a b => byteLe_total _ _⟩
  haveI : IsTrans Bytes setOrd := ⟨fun a b c => byteLe_trans _ _ _⟩
  exact List.sorted_insertionSort _ _

theorem stabSetList_congr (l₁ l₂ : List Bytes) (h₁ : l₁.Nodup) (h₂ : l₂.Nodup)
    (hm : ∀ x, x ∈ l₁ ↔ x ∈ l₂) : stabSetList l₁ = stabSetList l₂ := by
  haveI : IsAntisymm Bytes setOrd :=
    ⟨fun a b hab hba => encVstr_inj _ _ (byteLe_antisymm _ _ hab hba)⟩
  have hp : l₁.Perm l₂ := (List.perm_ext_iff_of_nodup h₁ h₂).mpr hm
  exact List.eq_of_perm_of_sorted
    (((stabSetList_perm l₁).trans hp).trans (stabSetList_perm l₂).symm)
    (stabSetList_sorted l₁) (stabSetList_sorted l₂)

theorem stabKeys_perm (ks : List Bytes) : (stabKeys ks).Perm ks :=
  List.perm_insertionSort _ _

theorem stabKeys_sorted (ks : List Bytes) : List.Sorted keyOrd (stabKeys ks) := by
  haveI : IsTotal Bytes keyOrd := ⟨fun a b => byteLe_total _ _⟩
  haveI : IsTrans Bytes keyOrd := ⟨fun a b c => byteLe_trans _ _ _⟩
  exact List.sorted_insertionSort _ _

theorem stabKeys_congr (k₁ k₂ : List Bytes) (h₁ : k₁.Nodup) (h₂ : k₂.Nodup)
    (hm : ∀ x, x ∈ k₁ ↔ x ∈ k₂) : stabKeys k₁ = stabKeys k₂ := by
  haveI : IsAntisymm Bytes keyOrd := ⟨fun a b hab hba => byteLe_antisymm _ _ hab hba⟩
  have hp : k₁.Perm k₂ := (List.perm_ext_iff_of_nodup h₁ h₂).mpr hm
  exact List.eq_of_perm_of_sorted
    (((stabKeys_perm k₁).trans hp).trans (stabKeys_perm k₂).symm)
    (stabKeys_sorted k₁) (stabKeys_sorted k₂)

theorem assocLookup_isSome {α : Type} : ∀ (m : List (Bytes × α)) (k : Bytes),
    (assocLookup m k).isSome = true ↔ k ∈ m.map Prod.fst := by
  intro m
  induction m with
  | nil => intro k; simp [assocLookup]
  | cons p m ih =>
    intro k
    obtain ⟨j, v⟩ := p
    by_cases h : j = k
    · subst h; simp [assocLookup]
    · simp [assocLookup, h, ih, Ne.symm h]

theorem assocLookup_mem {α : Type} : ∀ (m : List (Bytes × α)) (k : Bytes) (v : α),
    assocLookup m k = some v → (k, v) ∈ m := by
  intro m
  induction m with
  | nil => intro k v h; simp [assocLookup] at h
  | cons p m ih =>
    intro k v h
    obtain ⟨j, w⟩ := p
    by_cases hj : j = k
    · subst hj
      simp [assocLookup] at h
      subst h
      exact List.mem_cons_self _ _
    · simp [assocLookup, hj] at h
      exact List.mem_cons_of_mem _ (ih k v h)

theorem filterMapLookup {m : List (Bytes × List Bytes)} :
    ∀ (ks : List Bytes) (q : Bytes),
    assocLookup (ks.filterMap fun j => (assocLookup m j).map fun v => (j, v)) q =
      if q ∈ ks then assocLookup m q else none := by
  intro ks
  induction ks with
  | nil => intro q; simp [assocLookup]
  | cons j ks ih =>
    intro q
    cases hj : assocLookup m j with
    | none =>
      rw [List.filterMap_cons]
      simp only [hj, Option.map_none']
      rw [ih]
      by_cases hq : q = j
      · subst hq
        by_cases hmem : q ∈ ks <;> simp [hmem, hj]
      · simp [List.mem_cons, hq]
    | some v =>
      rw [List.filterMap_cons]
      simp only [hj, Option.map_some']
      by_cases hq : j = q
      · subst hq
        simp [assocLookup, hj]
      · have hq2 : ¬q = j := fun h => hq h.symm
        simp only [assocLookup, if_neg hq]
        rw [ih]
        simp [List.mem_cons, hq2]

theorem stabMap_lookup (m : List (Bytes × List Bytes)) (k : Bytes) :
    assocLookup (stabMapList m) k = assocLookup m k := by
  rw [stabMapList, filterMapLookup]
  by_cases hk : k ∈ stabKeys (m.map Prod.fst)
  · simp [hk]
  · have hk2 : k ∉ m.map Prod.fst := fun hmem =>
      hk (((stabKeys_perm (m.map Prod.fst)).mem_iff).mpr hmem)
    have hnone : assocLookup m k = none := by
      cases h : assocLookup m k with
      | none => rfl
      | some v => exact absurd ((assocLookup_isSome m k).mp (by simp [h])) hk2
    simp [hk, hnone]

theorem filterMapFst {m : List (Bytes × List Bytes)} :
    ∀ ks : List Bytes, (∀ j ∈ ks, j ∈ m.map Prod.fst) →
    (ks.filterMap fun j => (assocLookup m j).map fun v => (j, v)).map Prod.fst = ks := by
  intro ks
  induction ks with
  | nil => intro _; simp
  | cons j ks ih =>
    intro h
    have hj : j ∈ m.map Prod.fst := h j (List.mem_cons_self _ _)
    have hsome : (assocLookup m j).isSome = true := (assocLookup_isSome m j).mpr hj
    cases hlk : assocLookup m j with
    | none => rw [hlk] at hsome; simp at hsome
    | some v =>
      rw [List.filterMap_cons]
      simp only [hlk, Option.map_some']
      simp only [List.map_cons]
      rw [ih fun x hx => h x (List.mem_cons_of_mem _ hx)]

theorem stabMap_fst (m : List (Bytes × List Bytes)) :
    (stabMapList m).map Prod.fst = stabKeys (m.map Prod.fst) := by
  rw [stabMapList]
  exact filterMapFst _ fun j hj => ((stabKeys_perm (m.map Prod.fst)).mem_iff).mp hj

theorem stabMap_congr (m₁ m₂ : List (Bytes × List Bytes))
    (h₁ : (m₁.map Prod.fst).Nodup) (h₂ : (m₂.map Prod.fst).Nodup)
    (hl : ∀ k, assocLookup m₁ k = assocLookup m₂ k) :
    stabMapList m₁ = stabMapList m₂ := by
  have hkeys : stabKeys (m₁.map Prod.fst) = stabKeys (m₂.map Prod.fst) :=
    stabKeys_congr _ _ h₁ h₂ fun k => by
      rw [← assocLookup_isSome, ← assocLookup_isSome, hl]
  rw [stabMapList, stabMapList, hkeys]
  have hfun : (fun j => (assocLookup m₁ j).map fun v => (j, v)) =
      (fun j => (assocLookup m₂ j).map fun v => (j, v)) := by
    funext j; rw [hl]
  rw [hfun]

theorem stabMap_sorted (m : List (Bytes × List Bytes)) :
    List.Pairwise (fun p q => keyOrd p.1 q.1) (stabMapList m) := by
  have h : List.Pairwise keyOrd ((stabMapList m).map Prod.fst) := by
    rw [stabMap_fst]; exact stabKeys_sorted _
  exact List.pairwise_map.mp h

theorem read4_len4 (n : Nat) (r : Bytes) (h : n < 4294967296) :
    read4 (len4 n ++ r) = some (n, r) := by
  show read4 (n / 16777216 % 256 :: n / 65536 % 256 :: n / 256 % 256 :: n % 256 :: r)
      = some (n, r)
  rw [read4]
  have e : n / 16777216 % 256 * 16777216 + n / 65536 % 256 * 65536 + n / 256 % 256 * 256
      + n % 256 = n := by omega
  rw [e]

theorem readN_exact : ∀ (s r : Bytes), readN s.length (s ++ r) = some (s, r) := by
  intro s
  induction s with
  | nil => intro r; rfl
  | cons x xs ih => intro r; rw [List.cons_append, List.length_cons, readN, ih]

theorem read4_ext (bs : Bytes) (n : Nat) (r ex : Bytes) (h : read4 bs = some (n, r)) :
    read4 (bs ++ ex) = some (n, r ++ ex) := by
  cases bs with
  | nil => simp [read4] at h
  | cons b0 t0 =>
  cases t0 with
  | nil => simp [read4] at h
  | cons b1 t1 =>
  cases t1 with
  | nil => simp [read4] at h
  | cons b2 t2 =>
  cases t2 with
  | nil => simp [read4] at h
  | cons b3 r0 =>
    simp only [read4, Option.some.injEq, Prod.mk.injEq] at h
    obtain ⟨h1, h2⟩ := h
    subst h2
    simp only [List.cons_append, read4, h1]

theorem readN_ext : ∀ (n : Nat) (bs s r ex : Bytes), readN n bs = some (s, r) →
    readN n (bs ++ ex) = some (s, r ++ ex) := by
  intro n
  induction n with
  | zero =>
    intro bs s r ex h
    simp only [readN, Option.some.injEq, Prod.mk.injEq] at h
    obtain ⟨h1, h2⟩ := h
    subst h1; subst h2
    rfl
  | succ n ih =>
    intro bs s r ex h
    cases bs with
    | nil => simp [readN] at h
    | cons b bs =>
      rw [readN] at h
      cases hr : readN n bs with
      | none => rw [hr] at h; simp at h
      | some p =>
        obtain ⟨s0, r0⟩ := p
        rw [hr] at h
        simp only [Option.some.injEq, Prod.mk.injEq] at h
        obtain ⟨h1, h2⟩ := h
        subst h1; subst h2
        rw [List.cons_append, readN, ih bs s0 _ ex hr]

theorem sizeV_pos : ∀ v : Value, 1 ≤ sizeV v := by
  intro v; cases v <;> simp only [sizeV] <;> omega

theorem sizeL_pos : ∀ vs : List Value, 1 ≤ sizeL vs := by
  intro vs
  cases vs with
  | nil => exact Nat.le_refl 1
  | cons v vs => have := sizeV_pos v; simp only [sizeL]; omega

theorem sizeE_pos : ∀ es : List (Bytes × Value), 1 ≤ sizeE es := by
  intro es
  cases es with
  | nil => exact Nat.le_refl 1
  | cons e es => obtain ⟨k, v⟩ := e; have := sizeV_pos v; simp only [sizeE]; omega

mutual

theorem sizeV_le_enc : ∀ v : Value, sizeV v ≤ (encodeV v).length
  | .vstr s => by simp [sizeV, encodeV, len4]
  | .vbool b => by simp [sizeV, encodeV]
  | .varr vs => by
    have h := sizeL_le_enc vs
    simp only [sizeV, encodeV, List.length_cons, List.length_append, len4,
      List.length_nil]
    omega
  | .vmap es => by
    have h := sizeE_le_enc es
    simp only [sizeV, encodeV, List.length_cons, List.length_append, len4,
      List.length_nil]
    omega

theorem sizeL_le_enc : ∀ vs : List Value, sizeL vs ≤ (encodeL vs).length + 1
  | [] => by simp [sizeL, encodeL]
  | v :: vs => by
    have h1 := sizeV_le_enc v
    have h2 := sizeL_le_enc vs
    simp only [sizeL, encodeL, List.length_append]
    omega

theorem sizeE_le_enc : ∀ es : List (Bytes × Value), sizeE es ≤ (encodeE es).length + 1
  | [] => by simp [sizeE, encodeE]
  | (k, v) :: es => by
    have h1 := sizeV_le_enc v
    have h2 := sizeE_le_enc es
    simp only [sizeE, encodeE, List.length_append, len4]
    omega

end

theorem decodeV_zero_fuel (bs : Bytes) : decodeV 0 bs = none := rfl

theorem decodeA_zero_fuel (n : Nat) (bs : Bytes) : decodeA 0 n bs = none := rfl

theorem decodeM_zero_fuel (n : Nat) (bs : Bytes) : decodeM 0 n bs = none := rfl

theorem decodeV_succ_nil (f : Nat) : decodeV (f + 1) [] = none := rfl

theorem decodeV_succ_cons (f t : Nat) (bs : Bytes) :
    decodeV (f + 1) (t :: bs) =
      (if t = 1 then
        match read4 bs with
        | some (n, r1) =>
          match readN n r1 with
          | some (s, r2) => some (Value.vstr s, r2)
          | none => none
        | none => none
      else if t = 2 then
        match bs with
        | [] => none
        | b :: r1 =>
          if b = 0 then some (Value.vbool false, r1)
          else if b = 1 then some (Value.vbool true, r1)
          else none
      else if t = 3 then
        match read4 bs with
        | some (n, r1) =>
          match decodeA f n r1 with
          | some (vs, r2) => some (Value.varr vs, r2)
          | none => none
        | none => none
      else if t = 4 then
        match read4 bs with
        | some (n, r1) =>
          match decodeM f n r1 with
          | some (es, r2) => some (Value.vmap es, r2)
          | none => none
        | none => none
      else none) := rfl

theorem decodeV_succ_tag1 (f : Nat) (bs : Bytes) :
    decodeV (f + 1) (1 :: bs) =
      (match read4 bs with
       | some (n, r1) =>
         match readN n r1 with
         | some (s, r2) => some (Value.vstr s, r2)
         | none => none
       | none => none) := rfl

theorem decodeV_succ_tag3 (f : Nat) (bs : Bytes) :
    decodeV (f + 1) (3 :: bs) =
      (match read4 bs with
       | some (n, r1) =>
         match decodeA f n r1 with
         | some (vs, r2) => some (Value.varr vs, r2)
         | none => none
       | none => none) := rfl

theorem decodeV_succ_tag4 (f : Nat) (bs : Bytes) :
    decodeV (f + 1) (4 :: bs) =
      (match read4 bs with
       | some (n, r1) =>
         match decodeM f n r1 with
         | some (es, r2) => some (Value.vmap es, r2)
         | none => none
       | none => none) := rfl

theorem decodeA_succ_zero (f : Nat) (bs : Bytes) : decodeA (f + 1) 0 bs = some ([], bs) := rfl

theorem decodeA_succ_succ (f n : Nat) (bs : Bytes) :
    decodeA (f + 1) (n + 1) bs =
      (match decodeV f bs with
       | some (v, r1) =>
         match decodeA f n r1 with
         | some (vs, r2) => some (v :: vs, r2)
         | none => none
       | none => none) := rfl

theorem decodeM_succ_zero (f : Nat) (bs : Bytes) : decodeM (f + 1) 0 bs = some ([], bs) := rfl

theorem decodeM_succ_succ (f n : Nat) (bs : Bytes) :
    decodeM (f + 1) (n + 1) bs =
      (match read4 bs with
       | some (kn, r1) =>
         match readN kn r1 with
         | some (k, r2) =>
           match decodeV f r2 with
           | some (v, r3) =>
             match decodeM f n r3 with
             | some (es, r4) => some ((k, v) :: es, r4)
             | none => none
           | none => none
         | none => none
       | none => none) := rfl

theorem decode_rt : ∀ f : Nat,
    (∀ (v : Value) (r : Bytes), wfV v → sizeV v ≤ f →
      decodeV f (encodeV v ++ r) = some (v, r)) ∧
    (∀ (vs : List Value) (r : Bytes), wfL vs → sizeL vs ≤ f →
      decodeA f vs.length (encodeL vs ++ r) = some (vs, r)) ∧
    (∀ (es : List (Bytes × Value)) (r : Bytes), wfE es → sizeE es ≤ f →
      decodeM f es.length (encodeE es ++ r) = some (es, r)) := by
  intro f
  induction f with
  | zero =>
    refine ⟨?_, ?_, ?_⟩
    · intro v r _ hs; have := sizeV_pos v; omega
    · intro vs r _ hs; have := sizeL_pos vs; omega
    · intro es r _ hs; have := sizeE_pos es; omega
  | succ f ih =>
    obtain ⟨ihV, ihA, ihM⟩ := ih
    refine ⟨?_, ?_, ?_⟩
    · intro v r hw hs
      cases v with
      | vstr s =>
        show decodeV (f + 1) (1 :: (len4 s.length ++ (s ++ r))) = some (.vstr s, r)
        rw [decodeV_succ_tag1]
        simp only [read4_len4 _ _ hw, readN_exact]
      | vbool b =>
        cases b
        · show decodeV (f + 1) (2 :: 0 :: r) = some (.vbool false, r)
          rfl
        · show decodeV (f + 1) (2 :: 1 :: r) = some (.vbool true, r)
          rfl
      | varr vs =>
        obtain ⟨hlen, hvs⟩ := hw
        have hsz : sizeL vs ≤ f := by
          simp only [sizeV] at hs; omega
        show decodeV (f + 1) (3 :: (len4 vs.length ++ (encodeL vs ++ r))) = some (.varr vs, r)
        rw [decodeV_succ_tag3]
        simp only [read4_len4 _ _ hlen, ihA vs r hvs hsz]
      | vmap es =>
        obtain ⟨hlen, hes⟩ := hw
        have hsz : sizeE es ≤ f := by
          simp only [sizeV] at hs; omega
        show decodeV (f + 1) (4 :: (len4 es.length ++ (encodeE es ++ r))) = some (.vmap es, r)
        rw [decodeV_succ_tag4]
        simp only [read4_len4 _ _ hlen, ihM es r hes hsz]
    · intro vs r hw hs
      cases vs with
      | nil =>
        show decodeA (f + 1) 0 r = some ([], r)
        rfl
      | cons v vs =>
        obtain ⟨hv, hvs⟩ := hw
        have h1 : sizeV v ≤ f := by
          have := sizeL_pos vs; simp only [sizeL] at hs; omega
        have h2 : sizeL vs ≤ f := by
          have := sizeV_pos v; simp only [sizeL] at hs; omega
        have hsh : encodeL (v :: vs) ++ r = encodeV v ++ (encodeL vs ++ r) := by
          rw [show encodeL (v :: vs) = encodeV v ++ encodeL vs from rfl, List.append_assoc]
        rw [List.length_cons, hsh, decodeA_succ_succ]
        simp only [ihV v (encodeL vs ++ r) hv h1, ihA vs r hvs h2]
    · intro es r hw hs
      cases es with
      | nil =>
        show decodeM (f + 1) 0 r = some ([], r)
        rfl
      | cons e es =>
        obtain ⟨k, v⟩ := e
        obtain ⟨hk, hv, hes⟩ := hw
        have h1 : sizeV v ≤ f := by
          have := sizeE_pos es; simp only [sizeE] at hs; omega
        have h2 : sizeE es ≤ f := by
          have := sizeV_pos v; simp only [sizeE] at hs; omega
        have hsh : encodeE ((k, v) :: es) ++ r
            = len4 k.length ++ (k ++ (encodeV v ++ (encodeE es ++ r))) := by
          rw [show encodeE ((k, v) :: es) = len4 k.length ++ k ++ encodeV v ++ encodeE es
            from rfl]
          simp only [List.append_assoc]
        rw [List.length_cons, hsh, decodeM_succ_succ]
        simp only [read4_len4 _ _ hk, readN_exact, ihV v (encodeE es ++ r) hv h1,
          ihM es r hes h2]

theorem decode_ext : ∀ f : Nat,
    (∀ (bs : Bytes) (v : Value) (r ex : Bytes), decodeV f bs = some (v, r) →
      decodeV f (bs ++ ex) = some (v, r ++ ex)) ∧
    (∀ (n : Nat) (bs : Bytes) (vs : List Value) (r ex : Bytes),
      decodeA f n bs = some (vs, r) → decodeA f n (bs ++ ex) = some (vs, r ++ ex)) ∧
    (∀ (n : Nat) (bs : Bytes) (es : List (Bytes × Value)) (r ex : Bytes),
      decodeM f n bs = some (es, r) → decodeM f n (bs ++ ex) = some (es, r ++ ex)) := by
  intro f
  induction f with
  | zero =>
    refine ⟨?_, ?_, ?_⟩
    · intro bs v r ex h; rw [decodeV_zero_fuel] at h; simp at h
    · intro n bs vs r ex h; rw [decodeA_zero_fuel] at h; simp at h
    · intro n bs es r ex h; rw [decodeM_zero_fuel] at h; simp at h
  | succ f ih =>
    obtain ⟨ihV, ihA, ihM⟩ := ih
    refine ⟨?_, ?_, ?_⟩
    · intro bs v r ex h
      cases bs with
      | nil => rw [decodeV_succ_nil] at h; simp at h
      | cons t r0 =>
        by_cases h1 : t = 1
        · subst h1
          rw [decodeV_succ_tag1] at h
          rw [List.cons_append, decodeV_succ_tag1]
          cases h4 : read4 r0 with
          | none => rw [h4] at h; simp at h
          | some p =>
            obtain ⟨n, r1⟩ := p
            simp only [h4] at h
            simp only [read4_ext r0 n r1 ex h4]
            cases h5 : readN n r1 with
            | none => rw [h5] at h; simp at h
            | some q =>
              obtain ⟨s, r2⟩ := q
              simp only [h5] at h
              simp only [readN_ext n r1 s r2 ex h5]
              simp only [Option.some.injEq, Prod.mk.injEq] at h
              obtain ⟨h6, h7⟩ := h
              subst h6; subst h7
              rfl
        · by_cases h2 : t = 2
          · subst h2
            cases r0 with
            | nil =>
              rw [show decodeV (f + 1) (2 :: ([] : Bytes)) = none from rfl] at h
              simp at h
            | cons b r1 =>
              rw [show decodeV (f + 1) (2 :: b :: r1)
                  = (if b = 0 then some (Value.vbool false, r1)
                    else if b = 1 then some (Value.vbool true, r1) else none) from rfl] at h
              rw [List.cons_append, List.cons_append]
              rw [show decodeV (f + 1) (2 :: b :: (r1 ++ ex))
                  = (if b = 0 then some (Value.vbool false, r1 ++ ex)
                    else if b = 1 then some (Value.vbool true, r1 ++ ex) else none) from rfl]
              by_cases hb : b = 0
              · rw [if_pos hb] at h ⊢
                simp only [Option.some.injEq, Prod.mk.injEq] at h
                obtain ⟨h6, h7⟩ := h
                subst h6; subst h7
                rfl
              · rw [if_neg hb] at h ⊢
                by_cases hb1 : b = 1
                · rw [if_pos hb1] at h ⊢
                  simp only [Option.some.injEq, Prod.mk.injEq] at h
                  obtain ⟨h6, h7⟩ := h
                  subst h6; subst h7
                  rfl
                · rw [if_neg hb1] at h; simp at h
          · by_cases h3 : t = 3
            · subst h3
              rw [decodeV_succ_tag3] at h
              rw [List.cons_append, decodeV_succ_tag3]
              cases h4 : read4 r0 with
              | none => rw [h4] at h; simp at h
              | some p =>
                obtain ⟨n, r1⟩ := p
                simp only [h4] at h
                simp only [read4_ext r0 n r1 ex h4]
                cases h5 : decodeA f n r1 with
                | none => rw [h5] at h; simp at h
                | some q =>
                  obtain ⟨vs0, r2⟩ := q
                  simp only [h5] at h
                  simp only [ihA n r1 vs0 r2 ex h5]
                  simp only [Option.some.injEq, Prod.mk.injEq] at h
                  obtain ⟨h6, h7⟩ := h
                  subst h6; subst h7
                  rfl
            · by_cases ht4 : t = 4
              · subst ht4
                rw [decodeV_succ_tag4] at h
                rw [List.cons_append, decodeV_succ_tag4]
                cases h4 : read4 r0 with
                | none => rw [h4] at h; simp at h
                | some p =>
                  obtain ⟨n, r1⟩ := p
                  simp only [h4] at h
                  simp only [read4_ext r0 n r1 ex h4]
                  cases h5 : decodeM f n r1 with
                  | none => rw [h5] at h; simp at h
                  | some q =>
                    obtain ⟨es0, r2⟩ := q
                    simp only [h5] at h
                    simp only [ihM n r1 es0 r2 ex h5]
                    simp only [Option.some.injEq, Prod.mk.injEq] at h
                    obtain ⟨h6, h7⟩ := h
                    subst h6; subst h7
                    rfl
              · rw [decodeV_succ_cons, if_neg h1, if_neg h2, if_neg h3, if_neg ht4] at h
                simp at h
    · intro n bs vs r ex h
      cases n with
      | zero =>
        rw [decodeA_succ_zero] at h
        simp only [Option.some.injEq, Prod.mk.injEq] at h
        obtain ⟨h1, h2⟩ := h
        subst h1; subst h2
        rw [decodeA_succ_zero]
      | succ n =>
        rw [decodeA_succ_succ] at h
        rw [decodeA_succ_succ]
        cases h5 : decodeV f bs with
        | none => rw [h5] at h; simp at h
        | some p =>
          obtain ⟨v0, r1⟩ := p
          simp only [h5] at h
          simp only [ihV bs v0 r1 ex h5]
          cases h6 : decodeA f n r1 with
          | none => rw [h6] at h; simp at h
          | some q =>
            obtain ⟨vs0, r2⟩ := q
            simp only [h6] at h
            simp only [ihA n r1 vs0 r2 ex h6]
            simp only [Option.some.injEq, Prod.mk.injEq] at h
            obtain ⟨h7, h8⟩ := h
            subst h7; subst h8
            rfl
    · intro n bs es r ex h
      cases n with
      | zero =>
        rw [decodeM_succ_zero] at h
        simp only [Option.some.injEq, Prod.mk.injEq] at h
        obtain ⟨h1, h2⟩ := h
        subst h1; subst h2
        rw [decodeM_succ_zero]
      | succ n =>
        rw [decodeM_succ_succ] at h
        rw [decodeM_succ_succ]
        cases h4 : read4 bs with
        | none => rw [h4] at h; simp at h
        | some p =>
          obtain ⟨kn, r1⟩ := p
          simp only [h4] at h
          simp only [read4_ext bs kn r1 ex h4]
          cases h5 : readN kn r1 with
          | none => rw [h5] at h; simp at h
          | some q =>
            obtain ⟨k, r2⟩ := q
            simp only [h5] at h
            simp only [readN_ext kn r1 k r2 ex h5]
            cases h6 : decodeV f r2 with
            | none => rw [h6] at h; simp at h
            | some w =>
              obtain ⟨v0, r3⟩ := w
              simp only [h6] at h
              simp only [ihV r2 v0 r3 ex h6]
              cases h7 : decodeM f n r3 with
              | none => rw [h7] at h; simp at h
              | some u =>
                obtain ⟨es0, r4⟩ := u
                simp only [h7] at h
                simp only [ihM n r3 es0 r4 ex h7]
                simp only [Option.some.injEq, Prod.mk.injEq] at h
                obtain ⟨h8, h9⟩ := h
                subst h8; subst h9
                rfl

theorem decode_mono : ∀ f : Nat,
    (∀ (bs : Bytes) (out : Value × Bytes), decodeV f bs = some out →
      decodeV (f + 1) bs = some out) ∧
    (∀ (n : Nat) (bs : Bytes) (out : List Value × Bytes), decodeA f n bs = some out →
      decodeA (f + 1) n bs = some out) ∧
    (∀ (n : Nat) (bs : Bytes) (out : List (Bytes × Value) × Bytes),
      decodeM f n bs = some out → decodeM (f + 1) n bs = some out) := by
  intro f
  induction f with
  | zero =>
    refine ⟨?_, ?_, ?_⟩
    · intro bs out h; rw [decodeV_zero_fuel] at h; simp at h
    · intro n bs out h; rw [decodeA_zero_fuel] at h; simp at h
    · intro n bs out h; rw [decodeM_zero_fuel] at h; simp at h
  | succ f ih =>
    obtain ⟨ihV, ihA, ihM⟩ := ih
    refine ⟨?_, ?_, ?_⟩
    · intro bs out h
      cases bs with
      | nil => rw [decodeV_succ_nil] at h; simp at h
      | cons t r0 =>
        by_cases h1 : t = 1
        · subst h1
          rw [show decodeV (f + 1 + 1) (1 :: r0) = decodeV (f + 1) (1 :: r0) from rfl]
          exact h
        · by_cases h2 : t = 2
          · subst h2
            rw [show decodeV (f + 1 + 1) (2 :: r0) = decodeV (f + 1) (2 :: r0) from rfl]
            exact h
          · by_cases h3 : t = 3
            · subst h3
              rw [decodeV_succ_tag3] at h
              rw [decodeV_succ_tag3]
              cases h4 : read4 r0 with
              | none => rw [h4] at h; simp at h
              | some p =>
                obtain ⟨n, r1⟩ := p
                simp only [h4] at h ⊢
                cases h5 : decodeA f n r1 with
                | none => rw [h5] at h; simp at h
                | some q =>
                  simp only [h5] at h
                  simp only [ihA n r1 q h5]
                  exact h
            · by_cases ht4 : t = 4
              · subst ht4
                rw [decodeV_succ_tag4] at h
                rw [decodeV_succ_tag4]
                cases h4 : read4 r0 with
                | none => rw [h4] at h; simp at h
                | some p =>
                  obtain ⟨n, r1⟩ := p
                  simp only [h4] at h ⊢
                  cases h5 : decodeM f n r1 with
                  | none => rw [h5] at h; simp at h
                  | some q =>
                    simp only [h5] at h
                    simp only [ihM n r1 q h5]
                    exact h
              · rw [decodeV_succ_cons, if_neg h1, if_neg h2, if_neg h3, if_neg ht4] at h
                simp at h
    · intro n bs out h
      cases n with
      | zero =>
        rw [decodeA_succ_zero] at h
        rw [decodeA_succ_zero]
        exact h
      | succ n =>
        rw [decodeA_succ_succ] at h
        rw [decodeA_succ_succ]
        cases h5 : decodeV f bs with
        | none => rw [h5] at h; simp at h
        | some p =>
          simp only [h5] at h
          simp only [ihV bs p h5]
          obtain ⟨v0, r1⟩ := p
          cases h6 : decodeA f n r1 with
          | none => rw [h6] at h; simp at h
          | some q =>
            simp only [h6] at h
            simp only [ihA n r1 q h6]
            exact h
    · intro n bs out h
      cases n with
      | zero =>
        rw [decodeM_succ_zero] at h
        rw [decodeM_succ_zero]
        exact h
      | succ n =>
        rw [decodeM_succ_succ] at h
        rw [decodeM_succ_succ]
        cases h4 : read4 bs with
        | none => rw [h4] at h; simp at h
        | some p =>
          obtain ⟨kn, r1⟩ := p
          simp only [h4] at h ⊢
          cases h5 : readN kn r1 with
          | none => rw [h5] at h; simp at h
          | some q =>
            obtain ⟨k, r2⟩ := q
            simp only [h5] at h ⊢
            cases h6 : decodeV f r2 with
            | none => rw [h6] at h; simp at h
            | some w =>
              simp only [h6] at h
              simp only [ihV r2 w h6]
              obtain ⟨v0, r3⟩ := w
              cases h7 : decodeM f n r3 with
              | none => rw [h7] at h; simp at h
              | some u =>
                simp only [h7] at h
                simp only [ihM n r3 u h7]
                exact h

theorem decodeV_mono_le {f g : Nat} (hfg : f ≤ g) :
    ∀ (bs : Bytes) (out : Value × Bytes),
    decodeV f bs = some out → decodeV g bs = some out := by
  induction hfg with
  | refl => intro bs out h; exact h
  | step _ ih =>
    intro bs out h
    exact (decode_mono _).1 bs out (ih bs out h)

theorem wfL_forall : ∀ vs : List Value, (∀ v ∈ vs, wfV v) → wfL vs := by
  intro vs
  induction vs with
  | nil => intro _; trivial
  | cons v vs ih =>
    intro h
    exact ⟨h v (List.mem_cons_self _ _), ih fun w hw => h w (List.mem_cons_of_mem _ hw)⟩

theorem wfE_forall : ∀ es : List (Bytes × Value),
    (∀ e ∈ es, e.1.length < 4294967296 ∧ wfV e.2) → wfE es := by
  intro es
  induction es with
  | nil => intro _; trivial
  | cons e es ih =>
    intro h
    obtain ⟨k, v⟩ := e
    obtain ⟨h1, h2⟩ := h (k, v) (List.mem_cons_self _ _)
    exact ⟨h1, h2, ih fun w hw => h w (List.mem_cons_of_mem _ hw)⟩

theorem wfV_nflV (l : List Bytes) (h : wfList l) : wfV (nflV l) := by
  obtain ⟨hlen, hel⟩ := h
  show (l.map Value.vstr).length < 4294967296 ∧ wfL (l.map Value.vstr)
  refine ⟨by simpa using hlen, wfL_forall _ ?_⟩
  intro v hv
  rw [List.mem_map] at hv
  obtain ⟨s, hs, rfl⟩ := hv
  exact hel s hs

theorem wfList_stab (l : List Bytes) (h : wfList l) : wfList (stabSetList l) :=
  ⟨by rw [(stabSetList_perm l).length_eq]; exact h.1,
   fun s hs => h.2 s ((stabSetList_perm l).subset hs)⟩

theorem wfV_setV (l : List Bytes) (h : wfList l) : wfV (setV l) :=
  wfV_nflV (stabSetList l) (wfList_stab l h)

theorem stabMap_mem (m : List (Bytes × List Bytes)) (p : Bytes × List Bytes)
    (hp : p ∈ stabMapList m) : p ∈ m := by
  rw [stabMapList, List.mem_filterMap] at hp
  obtain ⟨j, _, he⟩ := hp
  cases hl : assocLookup m j with
  | none => rw [hl] at he; simp at he
  | some v =>
    rw [hl] at he
    simp only [Option.map_some', Option.some.injEq] at he
    subst he
    exact assocLookup_mem m j v hl

theorem wfV_mapV (m : List (Bytes × List Bytes)) (h : wfAssoc m) : wfV (mapV m) := by
  obtain ⟨hlen, hel⟩ := h
  show ((stabMapList m).map fun p => (p.1, Value.varr (p.2.map Value.vstr))).length
      < 4294967296 ∧ wfE ((stabMapList m).map fun p => (p.1, Value.varr (p.2.map Value.vstr)))
  constructor
  · rw [List.length_map]
    have h1 : (stabMapList m).length ≤ (stabKeys (m.map Prod.fst)).length :=
      List.length_filterMap_le _ _
    have h2 : (stabKeys (m.map Prod.fst)).length = m.length := by
      rw [(stabKeys_perm _).length_eq, List.length_map]
    omega
  · apply wfE_forall
    intro e he
    rw [List.mem_map] at he
    obtain ⟨p, hp, rfl⟩ := he
    obtain ⟨hk, hv⟩ := hel p (stabMap_mem m p hp)
    exact ⟨hk, wfV_nflV p.2 hv⟩

theorem wfV_fields (b : Blocker) (c : CosmeticFilterCache) (h : wfEngine b c) :
    wfV (.varr (fieldsOf b c)) := by
  obtain ⟨h1, h2, h3, h4, h5, h6, h7, h8, h9, h10, h11, h12, h13, h14, h15, h16, _⟩ := h
  refine ⟨by simp [fieldsOf], ?_⟩
  show wfL (fieldsOf b c)
  exact ⟨wfV_nflV _ h1, wfV_nflV _ h2, wfV_nflV _ h3, wfV_nflV _ h4, wfV_nflV _ h5,
    wfV_nflV _ h6, wfV_nflV _ h7, wfV_nflV _ h8, trivial, h9, wfV_setV _ h10,
    wfV_setV _ h11, wfV_mapV _ h12, wfV_mapV _ h13, h14, wfV_setV _ h15, h16, trivial⟩

theorem decStrs_map : ∀ l : List Bytes, decStrs (l.map .vstr) = some l := by
  intro l
  induction l with
  | nil => rfl
  | cons s l ih => simp [decStrs, ih]

theorem decStrList_nflV (l : List Bytes) : decStrList (nflV l) = some l :=
  decStrs_map l

theorem decStrList_setV (l : List Bytes) : decStrList (setV l) = some (stabSetList l) :=
  decStrs_map (stabSetList l)

theorem decPairs_map : ∀ m : List (Bytes × List Bytes),
    decPairs (m.map fun p => (p.1, Value.varr (p.2.map Value.vstr))) = some m := by
  intro m
  induction m with
  | nil => rfl
  | cons p m ih =>
    obtain ⟨k, v⟩ := p
    simp [decPairs, decStrList, decStrs_map, ih]

theorem decMapV_mapV (m : List (Bytes × List Bytes)) :
    decMapV (mapV m) = some (stabMapList m) :=
  decPairs_map (stabMapList m)

theorem interp_fields (b : Blocker) (c : CosmeticFilterCache) :
    interpretFields (fieldsOf b c) = some (decodedFormat b c) := by
  have g0 : getF (fieldsOf b c) 0 decStrList [] = some b.csp := decStrList_nflV b.csp
  have g1 : getF (fieldsOf b c) 1 decStrList [] = some b.exceptions :=
    decStrList_nflV b.exceptions
  have g2 : getF (fieldsOf b c) 2 decStrList [] = some b.importants :=
    decStrList_nflV b.importants
  have g3 : getF (fieldsOf b c) 3 decStrList [] = some b.redirects :=
    decStrList_nflV b.redirects
  have g4 : getF (fieldsOf b c) 4 decStrList [] = some b.filters_tagged :=
    decStrList_nflV b.filters_tagged
  have g5 : getF (fieldsOf b c) 5 decStrList [] = some b.filters :=
    decStrList_nflV b.filters
  have g6 : getF (fieldsOf b c) 6 decStrList [] = some b.generic_hide :=
    decStrList_nflV b.generic_hide
  have g7 : getF (fieldsOf b c) 7 decStrList [] = some b.tagged_filters_all :=
    decStrList_nflV b.tagged_filters_all
  have g8 : getF (fieldsOf b c) 8 decBool false = some b.enable_optimizations := rfl
  have g9 : getF (fieldsOf b c) 9 decStr [] = some b.resources := rfl
  have g10 : getF (fieldsOf b c) 10 decStrList []
      = some (stabSetList c.simple_class_rules) := decStrList_setV c.simple_class_rules
  have g11 : getF (fieldsOf b c) 11 decStrList []
      = some (stabSetList c.simple_id_rules) := decStrList_setV c.simple_id_rules
  have g12 : getF (fieldsOf b c) 12 decMapV []
      = some (stabMapList c.complex_class_rules) := decMapV_mapV c.complex_class_rules
  have g13 : getF (fieldsOf b c) 13 decMapV []
      = some (stabMapList c.complex_id_rules) := decMapV_mapV c.complex_id_rules
  have g14 : getF (fieldsOf b c) 14 decStr [] = some c.specific_rules := rfl
  have g15 : getF (fieldsOf b c) 15 decStrList []
      = some (stabSetList c.misc_generic_selectors) :=
    decStrList_setV c.misc_generic_selectors
  have g16 : getF (fieldsOf b c) 16 decStr [] = some c.scriptlets := rfl
  unfold interpretFields
  simp only [g0, g1, g2, g3, g4, g5, g6, g7, g8, g9, g10, g11, g12, g13, g14, g15, g16,
    Option.bind_eq_bind, Option.some_bind]
  rfl

theorem getF_take {α : Type} (vs : List Value) (K i : Nat) (dec : Value → Option α)
    (dflt : α) :
    getF (vs.take K) i dec dflt = if i < K then getF vs i dec dflt else some dflt := by
  unfold getF
  rw [List.getElem?_take]
  by_cases h : i < K
  · rw [if_pos h, if_pos h]
  · rw [if_neg h, if_neg h]

theorem getF_app {α : Type} (vs ex : List Value) (i : Nat) (h : i < vs.length)
    (dec : Value → Option α) (dflt : α) :
    getF (vs ++ ex) i dec dflt = getF vs i dec dflt := by
  unfold getF
  rw [List.getElem?_append, if_pos h]

theorem prefOfAppend : ∀ a t : Bytes, a.isPrefixOf (a ++ t) = true := by
  intro a
  induction a with
  | nil => intro t; simp [List.isPrefixOf]
  | cons x xs ih => intro t; simp [List.isPrefixOf, ih]

theorem getAtAppend : ∀ (a : Bytes) (b0 : Nat) (r : Bytes),
    (a ++ b0 :: r)[a.length]? = some b0 := by
  intro a
  induction a with
  | nil => intro b0 r; simp
  | cons x xs ih =>
    intro b0 r
    simp only [List.cons_append, List.length_cons, List.getElem?_cons_succ, ih]

theorem dropAfter : ∀ (a : Bytes) (b0 : Nat) (r : Bytes),
    (a ++ b0 :: r).drop (a.length + 1) = r := by
  intro a
  induction a with
  | nil => intro b0 r; rfl
  | cons x xs ih =>
    intro b0 r
    simp only [List.cons_append, List.length_cons, List.drop_succ_cons, ih]

theorem wire_ok (vs : List Value) (ex : Bytes) (hwf : wfV (.varr vs))
    (d : DeserializeFormat) (hi : interpretFields vs = some d) :
    deserialize (ADBLOCK_RUST_DAT_MAGIC ++ 0 :: (encodeV (.varr vs) ++ ex)) = .ok d := by
  unfold deserialize
  rw [if_pos (prefOfAppend ADBLOCK_RUST_DAT_MAGIC (0 :: (encodeV (.varr vs) ++ ex)))]
  simp only [getAtAppend, if_true]
  simp only [dropAfter]
  have hsz : sizeV (.varr vs)
      ≤ (ADBLOCK_RUST_DAT_MAGIC ++ 0 :: (encodeV (.varr vs) ++ ex)).length + 1 := by
    have h1 := sizeV_le_enc (.varr vs)
    simp only [List.length_append, List.length_cons]
    omega
  simp only [(decode_rt _).1 (.varr vs) ex hwf hsz, hi]

theorem serializeEngine_app (b : Blocker) (c : CosmeticFilterCache) (ex : Bytes) :
    serializeEngine b c ++ ex
      = ADBLOCK_RUST_DAT_MAGIC ++ 0 :: (encodeV (.varr (fieldsOf b c)) ++ ex) := by
  simp [serializeEngine, List.cons_append, List.append_assoc]

theorem deserialize_app (b : Blocker) (c : CosmeticFilterCache) (h : wfEngine b c)
    (ex : Bytes) : deserialize (serializeEngine b c ++ ex) = .ok (decodedFormat b c) := by
  rw [serializeEngine_app]
  exact wire_ok _ ex (wfV_fields b c h) _ (interp_fields b c)

theorem deserialize_serializeEngine (b : Blocker) (c : CosmeticFilterCache)
    (h : wfEngine b c) : deserialize (serializeEngine b c) = .ok (decodedFormat b c) := by
  have hx := deserialize_app b c h []
  rwa [List.append_nil] at hx

theorem wire_ok0 (vs : List Value) (hwf : wfV (.varr vs)) (d : DeserializeFormat)
    (hi : interpretFields vs = some d) :
    deserialize (ADBLOCK_RUST_DAT_MAGIC ++ 0 :: encodeV (.varr vs)) = .ok d := by
  have hx := wire_ok vs [] hwf d hi
  rwa [List.append_nil] at hx

theorem prefOfFull : ∀ a s : Bytes, a.isPrefixOf s = true → s.length = a.length → s = a := by
  intro a
  induction a with
  | nil =>
    intro s _ hlen
    cases s with
    | nil => rfl
    | cons x xs => simp at hlen
  | cons x xs ih =>
    intro s hp hlen
    cases s with
    | nil => simp [List.isPrefixOf] at hp
    | cons y ys =>
      simp only [List.isPrefixOf, Bool.and_eq_true, beq_iff_eq] at hp
      obtain ⟨hxy, hrec⟩ := hp
      subst hxy
      simp only [List.length_cons] at hlen
      rw [ih ys hrec (by omega)]

/-- C8: the consuming conversion of a parsed aggregate into the pair of engine
states moves each of the 17 persisted fields unchanged into exactly one of the
two outputs, and sets the two non-persisted fields (`tags_enabled` and the
object pool) to their empty default values. -/
theorem conversion_moves_fields (v : DeserializeFormat) :
    (intoEngine v).1.csp = v.csp ∧ (intoEngine v).1.exceptions = v.exceptions ∧
    (intoEngine v).1.importants = v.importants ∧
    (intoEngine v).1.redirects = v.redirects ∧
    (intoEngine v).1.filters_tagged = v.filters_tagged ∧
    (intoEngine v).1.filters = v.filters ∧
    (intoEngine v).1.generic_hide = v.generic_hide ∧
    (intoEngine v).1.tagged_filters_all = v.tagged_filters_all ∧
    (intoEngine v).1.enable_optimizations = v.enable_optimizations ∧
    (intoEngine v).1.resources = v.resources ∧
    (intoEngine v).2.simple_class_rules = v.simple_class_rules ∧
    (intoEngine v).2.simple_id_rules = v.simple_id_rules ∧
    (intoEngine v).2.complex_class_rules = v.complex_class_rules ∧
    (intoEngine v).2.complex_id_rules = v.complex_id_rules ∧
    (intoEngine v).2.specific_rules = v.specific_rules ∧
    (intoEngine v).2.misc_generic_selectors = v.misc_generic_selectors ∧
    (intoEngine v).2.scriptlets = v.scriptlets ∧
    (intoEngine v).1.tags_enabled = [] ∧ (intoEngine v).1.pool = [] :=
  ⟨rfl, rfl, rfl, rfl, rfl, rfl, rfl, rfl, rfl, rfl, rfl, rfl, rfl, rfl, rfl, rfl, rfl,
   rfl, rfl⟩

/-- C9: for every input that begins with the full magic constant but has no
byte after it (length exactly the magic length), the version-byte access in
`deserialize` indexes out of the slice bounds: the call panics, returning
neither a value nor an error. -/
theorem deserialize_magic_only_oob (s : Bytes)
    (h1 : s.length = ADBLOCK_RUST_DAT_MAGIC.length)
    (h2 : ADBLOCK_RUST_DAT_MAGIC.isPrefixOf s = true) :
    deserialize s = .panic .indexOutOfBounds := by
  rw [prefOfFull ADBLOCK_RUST_DAT_MAGIC s h2 h1]
  decide

/-- Witness for C9 at the unique such input, the magic constant itself. -/
theorem deserialize_magic_only_oob_witness :
    ADBLOCK_RUST_DAT_MAGIC.length = ADBLOCK_RUST_DAT_MAGIC.length ∧
    ADBLOCK_RUST_DAT_MAGIC.isPrefixOf ADBLOCK_RUST_DAT_MAGIC = true ∧
    deserialize ADBLOCK_RUST_DAT_MAGIC = .panic .indexOutOfBounds :=
  ⟨rfl, by decide, deserialize_magic_only_oob ADBLOCK_RUST_DAT_MAGIC rfl (by decide)⟩

/-- C3 (code bug evidence): on inputs whose first bytes are not exactly the
magic constant followed by the version byte, `deserialize` does not return a
recoverable error: the `assert!` calls abort the process. Shown at an empty
input, an input shorter than the header, a full-length input with wrong magic
bytes, and an input with correct magic but a wrong version byte. -/
theorem deserialize_bad_header_panics :
    deserialize [] = .panic .assertFailed ∧
    deserialize [209, 217] = .panic .assertFailed ∧
    deserialize [0, 0, 0, 0, 0, 0] = .panic .assertFailed ∧
    deserialize [209, 217, 58, 175, 9, 1] = .panic .assertFailed := by
  refine ⟨by decide, by decide, by decide, by decide⟩

/-- C1: deserializing the bytes produced by serializing a valid engine state
reconstructs a state observably equal to it: every rule bucket, the tagged
pool, the flag and the opaque tables round-trip exactly, every hash set and
map round-trips at membership/lookup level, and every complex-selector value
list keeps its internal order. -/
theorem roundtrip_observable_eq (b : Blocker) (c : CosmeticFilterCache)
    (h : wfEngine b c) :
    ∃ d, deserialize (serializeEngine b c) = .ok d ∧ obsEq (intoEngine d) (b, c) := by
  refine ⟨decodedFormat b c, deserialize_serializeEngine b c h, ?_⟩
  refine ⟨rfl, rfl, rfl, rfl, rfl, rfl, rfl, rfl, rfl, rfl, ?_, ?_, ?_, ?_, rfl, ?_, rfl⟩
  · intro x; exact (stabSetList_perm c.simple_class_rules).mem_iff
  · intro x; exact (stabSetList_perm c.simple_id_rules).mem_iff
  · intro k; exact stabMap_lookup c.complex_class_rules k
  · intro k; exact stabMap_lookup c.complex_id_rules k
  · intro x; exact (stabSetList_perm c.misc_generic_selectors).mem_iff

/-- Witness for C1 at the concrete scenario state of the specification. -/
theorem roundtrip_observable_eq_witness :
    wfEngine exBlocker exCfc ∧
    ∃ d, deserialize (serializeEngine exBlocker exCfc) = .ok d ∧
      obsEq (intoEngine d) (exBlocker, exCfc) :=
  ⟨by decide, roundtrip_observable_eq exBlocker exCfc (by decide)⟩

/-- C10: bytes appended after a complete serialized blob are silently
ignored: deserialization succeeds and returns the same aggregate as for the
blob alone. -/
theorem trailing_garbage_accepted (b : Blocker) (c : CosmeticFilterCache)
    (h : wfEngine b c) (s : Bytes) :
    deserialize (serializeEngine b c ++ s) = deserialize (serializeEngine b c) ∧
    ∃ d, deserialize (serializeEngine b c) = .ok d := by
  refine ⟨?_, decodedFormat b c, deserialize_serializeEngine b c h⟩
  rw [deserialize_app b c h s, deserialize_serializeEngine b c h]

/-- Witness for C10 at the concrete scenario state with two garbage bytes. -/
theorem trailing_garbage_accepted_witness :
    wfEngine exBlocker exCfc ∧
    (deserialize (serializeEngine exBlocker exCfc ++ [7, 7])
        = deserialize (serializeEngine exBlocker exCfc) ∧
      ∃ d, deserialize (serializeEngine exBlocker exCfc) = .ok d) :=
  ⟨by decide, trailing_garbage_accepted exBlocker exCfc (by decide) [7, 7]⟩

/-- C5: the serialized form of every engine state is the magic constant, one
version byte 0, then a payload that decodes as the single record holding the
17 fields in the canonical schema order. -/
theorem serialize_layout_canonical (b : Blocker) (c : CosmeticFilterCache)
    (h : wfEngine b c) :
    ∃ payload, serializeEngine b c = ADBLOCK_RUST_DAT_MAGIC ++ 0 :: payload ∧
      decodeV (payload.length + 1) payload =
        some (.varr [nflV b.csp, nflV b.exceptions, nflV b.importants, nflV b.redirects,
          nflV b.filters_tagged, nflV b.filters, nflV b.generic_hide,
          nflV b.tagged_filters_all, .vbool b.enable_optimizations, .vstr b.resources,
          setV c.simple_class_rules, setV c.simple_id_rules, mapV c.complex_class_rules,
          mapV c.complex_id_rules, .vstr c.specific_rules, setV c.misc_generic_selectors,
          .vstr c.scriptlets], []) := by
  refine ⟨encodeV (.varr (fieldsOf b c)), rfl, ?_⟩
  have hsz : sizeV (.varr (fieldsOf b c))
      ≤ (encodeV (.varr (fieldsOf b c))).length + 1 := by
    have hx := sizeV_le_enc (.varr (fieldsOf b c)); omega
  have hrt := (decode_rt _).1 (.varr (fieldsOf b c)) [] (wfV_fields b c h) hsz
  rwa [List.append_nil] at hrt

/-- Witness for C5 at the concrete scenario state. -/
theorem serialize_layout_canonical_witness :
    wfEngine exBlocker exCfc ∧
    ∃ payload, serializeEngine exBlocker exCfc = ADBLOCK_RUST_DAT_MAGIC ++ 0 :: payload ∧
      decodeV (payload.length + 1) payload =
        some (.varr [nflV exBlocker.csp, nflV exBlocker.exceptions,
          nflV exBlocker.importants, nflV exBlocker.redirects,
          nflV exBlocker.filters_tagged, nflV exBlocker.filters,
          nflV exBlocker.generic_hide, nflV exBlocker.tagged_filters_all,
          .vbool exBlocker.enable_optimizations, .vstr exBlocker.resources,
          setV exCfc.simple_class_rules, setV exCfc.simple_id_rules,
          mapV exCfc.complex_class_rules, mapV exCfc.complex_id_rules,
          .vstr exCfc.specific_rules, setV exCfc.misc_generic_selectors,
          .vstr exCfc.scriptlets], []) :=
  ⟨by decide, serialize_layout_canonical exBlocker exCfc (by decide)⟩

/-- C6: the hash-based collections occupy the schema positions 11 to 17 as
stabilized sequences: each set is written as the sequence of its elements
sorted by the byte value of their encoded form (a permutation of the set),
and each map is written as its entries sorted by key with every looked-up
value kept as-is. -/
theorem hash_collections_serialized_sorted :
    (∀ (b : Blocker) (c : CosmeticFilterCache),
      (fieldsOf b c)[10]? = some (setV c.simple_class_rules) ∧
      (fieldsOf b c)[11]? = some (setV c.simple_id_rules) ∧
      (fieldsOf b c)[15]? = some (setV c.misc_generic_selectors) ∧
      (fieldsOf b c)[12]? = some (mapV c.complex_class_rules) ∧
      (fieldsOf b c)[13]? = some (mapV c.complex_id_rules)) ∧
    (∀ l : List Bytes, setV l = .varr ((stabSetList l).map .vstr) ∧
      (stabSetList l).Perm l ∧ List.Sorted setOrd (stabSetList l)) ∧
    (∀ m : List (Bytes × List Bytes),
      mapV m = .vmap ((stabMapList m).map fun p => (p.1, .varr (p.2.map .vstr))) ∧
      ((stabMapList m).map Prod.fst).Perm (m.map Prod.fst) ∧
      List.Pairwise (fun p q => keyOrd p.1 q.1) (stabMapList m) ∧
      ∀ k, assocLookup (stabMapList m) k = assocLookup m k) := by
  refine ⟨fun b c => ⟨rfl, rfl, rfl, rfl, rfl⟩,
    fun l => ⟨rfl, stabSetList_perm l, stabSetList_sorted l⟩,
    fun m => ⟨rfl, ?_, stabMap_sorted m, stabMap_lookup m⟩⟩
  rw [stabMap_fst]
  exact stabKeys_perm _

/-- C2: serialization is a deterministic function of the abstract value of
the engine state: two states equal at the observable level (ordered fields
equal, hash collections equal as sets/maps) serialize to byte-identical
output, whatever the insertion histories of their hash collections. -/
theorem serialize_deterministic (b1 : Blocker) (c1 : CosmeticFilterCache)
    (b2 : Blocker) (c2 : CosmeticFilterCache)
    (h1 : hashNodup c1) (h2 : hashNodup c2) (he : obsEq (b1, c1) (b2, c2)) :
    serializeEngine b1 c1 = serializeEngine b2 c2 := by
  obtain ⟨n1, n2, n3, n4, n5⟩ := h1
  obtain ⟨m1, m2, m3, m4, m5⟩ := h2
  dsimp only [obsEq, setEqv, mapEqv] at he
  obtain ⟨e1, e2, e3, e4, e5, e6, e7, e8, e9, e10, s1, s2, q1, q2, e11, s3, e12⟩ := he
  have hf : fieldsOf b1 c1 = fieldsOf b2 c2 := by
    unfold fieldsOf nflV setV mapV
    rw [e1, e2, e3, e4, e5, e6, e7, e8, e9, e10, e11, e12,
      stabSetList_congr _ _ n1 m1 s1, stabSetList_congr _ _ n2 m2 s2,
      stabSetList_congr _ _ n3 m3 s3, stabMap_congr _ _ n4 m4 q1,
      stabMap_congr _ _ n5 m5 q2]
  unfold serializeEngine
  rw [hf]

/-- Witness for C2: two cosmetic states with identical set/map contents but
opposite insertion orders serialize to byte-identical output. -/
theorem serialize_deterministic_witness :
    hashNodup cfcA ∧ hashNodup cfcB ∧ obsEq (exBlocker, cfcA) (exBlocker, cfcB) ∧
    serializeEngine exBlocker cfcA = serializeEngine exBlocker cfcB := by
  have hobs : obsEq (exBlocker, cfcA) (exBlocker, cfcB) := by
    refine ⟨rfl, rfl, rfl, rfl, rfl, rfl, rfl, rfl, rfl, rfl, ?_, ?_, ?_, ?_, rfl, ?_, rfl⟩
    · intro x
      show x ∈ ([[97], [98]] : List Bytes) ↔ x ∈ ([[98], [97]] : List Bytes)
      simp only [List.mem_cons, List.not_mem_nil, or_false]
      tauto
    · intro x; exact Iff.rfl
    · intro k
      show assocLookup [([105], [[1], [2]]), ([106], [[3]])] k
        = assocLookup [([106], [[3]]), ([105], [[1], [2]])] k
      by_cases h1 : ([105] : Bytes) = k
      · have h2 : ¬([106] : Bytes) = k := by rw [← h1]; decide
        simp [assocLookup, h1, h2]
      · simp [assocLookup, h1]
    · intro k; exact rfl
    · intro x; exact Iff.rfl
  exact ⟨by decide, by decide, hobs,
    serialize_deterministic exBlocker cfcA exBlocker cfcB (by decide) (by decide) hobs⟩

theorem wfL_mem : ∀ vs : List Value, wfL vs → ∀ v ∈ vs, wfV v := by
  intro vs
  induction vs with
  | nil => intro _ v hv; simp at hv
  | cons w vs ih =>
    intro h v hv
    obtain ⟨h1, h2⟩ := h
    rcases List.mem_cons.mp hv with hv | hv
    · subst hv; exact h1
    · exact ih h2 v hv

theorem getFF0 (b : Blocker) (c : CosmeticFilterCache) :
    getF (fieldsOf b c) 0 decStrList [] = some b.csp := decStrList_nflV b.csp

theorem getFF1 (b : Blocker) (c : CosmeticFilterCache) :
    getF (fieldsOf b c) 1 decStrList [] = some b.exceptions := decStrList_nflV b.exceptions

theorem getFF2 (b : Blocker) (c : CosmeticFilterCache) :
    getF (fieldsOf b c) 2 decStrList [] = some b.importants := decStrList_nflV b.importants

theorem getFF3 (b : Blocker) (c : CosmeticFilterCache) :
    getF (fieldsOf b c) 3 decStrList [] = some b.redirects := decStrList_nflV b.redirects

theorem getFF4 (b : Blocker) (c : CosmeticFilterCache) :
    getF (fieldsOf b c) 4 decStrList [] = some b.filters_tagged :=
  decStrList_nflV b.filters_tagged

theorem getFF5 (b : Blocker) (c : CosmeticFilterCache) :
    getF (fieldsOf b c) 5 decStrList [] = some b.filters := decStrList_nflV b.filters

theorem getFF6 (b : Blocker) (c : CosmeticFilterCache) :
    getF (fieldsOf b c) 6 decStrList [] = some b.generic_hide :=
  decStrList_nflV b.generic_hide

theorem getFF7 (b : Blocker) (c : CosmeticFilterCache) :
    getF (fieldsOf b c) 7 decStrList [] = some b.tagged_filters_all :=
  decStrList_nflV b.tagged_filters_all

theorem getFF8 (b : Blocker) (c : CosmeticFilterCache) :
    getF (fieldsOf b c) 8 decBool false = some b.enable_optimizations := rfl

theorem getFF9 (b : Blocker) (c : CosmeticFilterCache) :
    getF (fieldsOf b c) 9 decStr [] = some b.resources := rfl

theorem getFF10 (b : Blocker) (c : CosmeticFilterCache) :
    getF (fieldsOf b c) 10 decStrList [] = some (stabSetList c.simple_class_rules) :=
  decStrList_setV c.simple_class_rules

theorem getFF11 (b : Blocker) (c : CosmeticFilterCache) :
    getF (fieldsOf b c) 11 decStrList [] = some (stabSetList c.simple_id_rules) :=
  decStrList_setV c.simple_id_rules

theorem getFF12 (b : Blocker) (c : CosmeticFilterCache) :
    getF (fieldsOf b c) 12 decMapV [] = some (stabMapList c.complex_class_rules) :=
  decMapV_mapV c.complex_class_rules

theorem getFF13 (b : Blocker) (c : CosmeticFilterCache) :
    getF (fieldsOf b c) 13 decMapV [] = some (stabMapList c.complex_id_rules) :=
  decMapV_mapV c.complex_id_rules

theorem getFF14 (b : Blocker) (c : CosmeticFilterCache) :
    getF (fieldsOf b c) 14 decStr [] = some c.specific_rules := rfl

theorem getFF15 (b : Blocker) (c : CosmeticFilterCache) :
    getF (fieldsOf b c) 15 decStrList [] = some (stabSetList c.misc_generic_selectors) :=
  decStrList_setV c.misc_generic_selectors

theorem getFF16 (b : Blocker) (c : CosmeticFilterCache) :
    getF (fieldsOf b c) 16 decStr [] = some c.scriptlets := rfl

theorem fields_len_lt (b : Blocker) (c : CosmeticFilterCache) (i : Nat)
    (hi : i < 17) : i < (fieldsOf b c).length := by
  rw [show (fieldsOf b c).length = 17 from rfl]; exact hi

/-- C4: schema evolution. A record holding only the first K of the 17 schema
fields decodes successfully, the absent trailing fields taking their
defaults; a record holding the 17 fields plus unknown trailing fields decodes
successfully, ignoring the extras. -/
theorem schema_evolution_compat (b : Blocker) (c : CosmeticFilterCache)
    (h : wfEngine b c) (K : Nat) (hK : K ≤ 17) (extras : List Value)
    (hex : wfL extras) (hlen : 17 + extras.length < 4294967296) :
    deserialize (ADBLOCK_RUST_DAT_MAGIC ++ 0 :: encodeV (.varr ((fieldsOf b c).take K)))
      = .ok (truncFormat b c K) ∧
    deserialize (ADBLOCK_RUST_DAT_MAGIC ++ 0 :: encodeV (.varr (fieldsOf b c ++ extras)))
      = .ok (decodedFormat b c) := by
  have h17 : (fieldsOf b c).length = 17 := rfl
  constructor
  · have hwfT : wfV (.varr ((fieldsOf b c).take K)) := by
      refine ⟨?_, ?_⟩
      · rw [List.length_take, h17]; omega
      · exact wfL_forall _ fun v hv =>
          wfL_mem _ (wfV_fields b c h).2 v (List.mem_of_mem_take hv)
    have hi : interpretFields ((fieldsOf b c).take K) = some (truncFormat b c K) := by
      unfold interpretFields
      simp only [getF_take, getFF0, getFF1, getFF2, getFF3, getFF4, getFF5, getFF6,
        getFF7, getFF8, getFF9, getFF10, getFF11, getFF12, getFF13, getFF14, getFF15,
        getFF16]
      simp only [← apply_ite Option.some]
      simp only [Option.bind_eq_bind, Option.some_bind]
      rfl
    exact wire_ok0 _ hwfT _ hi
  · have hwfA : wfV (.varr (fieldsOf b c ++ extras)) := by
      refine ⟨?_, ?_⟩
      · rw [List.length_append, h17]; omega
      · refine wfL_forall _ fun v hv => ?_
        rcases List.mem_append.mp hv with hv | hv
        · exact wfL_mem _ (wfV_fields b c h).2 v hv
        · exact wfL_mem _ hex v hv
    have hi : interpretFields (fieldsOf b c ++ extras) = some (decodedFormat b c) := by
      unfold interpretFields
      simp only [getF_app (fieldsOf b c) extras 0 (fields_len_lt b c 0 (by decide)),
        getF_app (fieldsOf b c) extras 1 (fields_len_lt b c 1 (by decide)),
        getF_app (fieldsOf b c) extras 2 (fields_len_lt b c 2 (by decide)),
        getF_app (fieldsOf b c) extras 3 (fields_len_lt b c 3 (by decide)),
        getF_app (fieldsOf b c) extras 4 (fields_len_lt b c 4 (by decide)),
        getF_app (fieldsOf b c) extras 5 (fields_len_lt b c 5 (by decide)),
        getF_app (fieldsOf b c) extras 6 (fields_len_lt b c 6 (by decide)),
        getF_app (fieldsOf b c) extras 7 (fields_len_lt b c 7 (by decide)),
        getF_app (fieldsOf b c) extras 8 (fields_len_lt b c 8 (by decide)),
        getF_app (fieldsOf b c) extras 9 (fields_len_lt b c 9 (by decide)),
        getF_app (fieldsOf b c) extras 10 (fields_len_lt b c 10 (by decide)),
        getF_app (fieldsOf b c) extras 11 (fields_len_lt b c 11 (by decide)),
        getF_app (fieldsOf b c) extras 12 (fields_len_lt b c 12 (by decide)),
        getF_app (fieldsOf b c) extras 13 (fields_len_lt b c 13 (by decide)),
        getF_app (fieldsOf b c) extras 14 (fields_len_lt b c 14 (by decide)),
        getF_app (fieldsOf b c) extras 15 (fields_len_lt b c 15 (by decide)),
        getF_app (fieldsOf b c) extras 16 (fields_len_lt b c 16 (by decide))]
      simp only [getFF0, getFF1, getFF2, getFF3, getFF4, getFF5, getFF6, getFF7, getFF8,
        getFF9, getFF10, getFF11, getFF12, getFF13, getFF14, getFF15, getFF16]
      simp only [Option.bind_eq_bind, Option.some_bind]
      rfl
    exact wire_ok0 _ hwfA _ hi

/-- Witness for C4 at the concrete scenario state, an old record with 3 of 17
fields and a new record with one extra trailing field. -/
theorem schema_evolution_compat_witness :
    wfEngine exBlocker exCfc ∧ 3 ≤ 17 ∧ wfL [Value.vbool true] ∧
    17 + [Value.vbool true].length < 4294967296 ∧
    (deserialize (ADBLOCK_RUST_DAT_MAGIC ++ 0
        :: encodeV (.varr ((fieldsOf exBlocker exCfc).take 3)))
      = .ok (truncFormat exBlocker exCfc 3) ∧
     deserialize (ADBLOCK_RUST_DAT_MAGIC ++ 0
        :: encodeV (.varr (fieldsOf exBlocker exCfc ++ [Value.vbool true])))
      = .ok (decodedFormat exBlocker exCfc)) :=
  ⟨by decide, by decide, ⟨trivial, trivial⟩, by decide,
   schema_evolution_compat exBlocker exCfc (by decide) 3 (by decide) [Value.vbool true]
     ⟨trivial, trivial⟩ (by decide)⟩

theorem wire_err (X : Bytes)
    (hnone : decodeV ((ADBLOCK_RUST_DAT_MAGIC ++ 0 :: X).length + 1) X = none) :
    deserialize (ADBLOCK_RUST_DAT_MAGIC ++ 0 :: X) = .decodeError := by
  unfold deserialize
  rw [if_pos (prefOfAppend ADBLOCK_RUST_DAT_MAGIC (0 :: X))]
  simp only [getAtAppend, if_true]
  simp only [dropAfter]
  simp only [hnone]

/-- C7 counterexample: truncating a valid blob to its first 0 bytes makes
`deserialize` abort through an `assert!` failure; it does not return the
recoverable decode-error value the claim promises. -/
theorem truncation_header_panic_cex :
    0 < (serializeEngine exBlocker exCfc).length ∧
    deserialize ((serializeEngine exBlocker exCfc).take 0) = .panic .assertFailed ∧
    deserialize ((serializeEngine exBlocker exCfc).take 0) ≠ .decodeError := by
  refine ⟨by decide, by decide, by decide⟩

/-- C7 (amended): truncating a valid serialized blob strictly before its end
never yields a successful aggregate: at offsets past the header the decoder
returns a decode error, at offsets inside the header the `assert!` calls or
the version-byte indexing panic. -/
theorem truncation_no_partial_success (b : Blocker) (c : CosmeticFilterCache)
    (h : wfEngine b c) (k : Nat) (hk : k < (serializeEngine b c).length) :
    (5 ≤ k → deserialize ((serializeEngine b c).take k) = .decodeError) ∧
    (k < 5 → ∃ p, deserialize ((serializeEngine b c).take k) = .panic p) ∧
    (∀ d, deserialize ((serializeEngine b c).take k) ≠ .ok d) := by
  have hlen : (serializeEngine b c).length
      = (encodeV (.varr (fieldsOf b c))).length + 5 := by
    simp only [serializeEngine, ADBLOCK_RUST_DAT_MAGIC, List.length_append,
      List.length_cons, List.length_nil]
    omega
  have herr : 5 ≤ k → deserialize ((serializeEngine b c).take k) = .decodeError := by
    intro h5
    obtain ⟨m, rfl⟩ : ∃ m, k = m + 5 := ⟨k - 5, by omega⟩
    have hm2 : m < (encodeV (.varr (fieldsOf b c))).length := by omega
    have htake : (serializeEngine b c).take (m + 5)
        = ADBLOCK_RUST_DAT_MAGIC ++ 0 :: (encodeV (.varr (fieldsOf b c))).take m := rfl
    rw [htake]
    apply wire_err
    by_contra hcon
    cases hx : decodeV
        ((ADBLOCK_RUST_DAT_MAGIC
          ++ 0 :: (encodeV (.varr (fieldsOf b c))).take m).length + 1)
        ((encodeV (.varr (fieldsOf b c))).take m) with
    | none => exact hcon hx
    | some out =>
      obtain ⟨w, rest⟩ := out
      have hext := (decode_ext _).1 _ w rest ((encodeV (.varr (fieldsOf b c))).drop m) hx
      rw [List.take_append_drop] at hext
      have hsz : sizeV (.varr (fieldsOf b c))
          ≤ (encodeV (.varr (fieldsOf b c))).length + 1 := by
        have hq := sizeV_le_enc (.varr (fieldsOf b c)); omega
      have hrt := (decode_rt _).1 (.varr (fieldsOf b c)) [] (wfV_fields b c h) hsz
      rw [List.append_nil] at hrt
      have hA := decodeV_mono_le
        (le_max_left
          ((ADBLOCK_RUST_DAT_MAGIC
            ++ 0 :: (encodeV (.varr (fieldsOf b c))).take m).length + 1)
          ((encodeV (.varr (fieldsOf b c))).length + 1))
        _ _ hext
      have hB := decodeV_mono_le
        (le_max_right
          ((ADBLOCK_RUST_DAT_MAGIC
            ++ 0 :: (encodeV (.varr (fieldsOf b c))).take m).length + 1)
          ((encodeV (.varr (fieldsOf b c))).length + 1))
        _ _ hrt
      rw [hA] at hB
      simp only [Option.some.injEq, Prod.mk.injEq] at hB
      obtain ⟨_, hB2⟩ := hB
      have hdrop : (encodeV (.varr (fieldsOf b c))).drop m = [] :=
        (List.append_eq_nil.mp hB2).2
      have hge := List.drop_eq_nil_iff.mp hdrop
      omega
  have hpan : k < 5 → ∃ p, deserialize ((serializeEngine b c).take k) = .panic p := by
    intro h5
    interval_cases k
    · exact ⟨.assertFailed, rfl⟩
    · exact ⟨.assertFailed, rfl⟩
    · exact ⟨.assertFailed, rfl⟩
    · exact ⟨.assertFailed, rfl⟩
    · exact ⟨.indexOutOfBounds, rfl⟩
  refine ⟨herr, hpan, ?_⟩
  intro d hd
  by_cases h5 : 5 ≤ k
  · rw [herr h5] at hd
    exact DResult.noConfusion hd
  · obtain ⟨p, hp⟩ := hpan (by omega)
    rw [hp] at hd
    exact DResult.noConfusion hd

/-- Witness for the amended C7 at the concrete scenario state, truncating at
byte offset 6 (one byte into the payload). -/
theorem truncation_no_partial_success_witness :
    wfEngine exBlocker exCfc ∧ 6 < (serializeEngine exBlocker exCfc).length ∧
    ((5 ≤ 6 → deserialize ((serializeEngine exBlocker exCfc).take 6) = .decodeError) ∧
     (6 < 5 → ∃ p, deserialize ((serializeEngine exBlocker exCfc).take 6) = .panic p) ∧
     (∀ d, deserialize ((serializeEngine exBlocker exCfc).take 6) ≠ .ok d)) :=
  ⟨by decide, by decide,
   truncation_no_partial_success exBlocker exCfc (by decide) 6 (by decide)⟩
